import Mathlib

/-!
Verification of the data-harmonization pipeline of the Derpin project.

The development shallowly embeds the pure core of `Derpin_Notebook.py`
(column-name heuristics, per-source cleaning, deduplication, the fold of
outer joins, sorting, persistence order) and of `dashboard.py` (threshold
classifiers), and proves or refutes the specification claims about them.

Conventions:
* tables are lists of rows; a two-column cleaned table (`STable`) pairs each
  entity-key string with a value; a wide table (`WTable`) keeps the value
  column names and, per row, the key together with one optional cell per
  column (`Option.none` is the pandas missing-value marker `NaN`);
* Python string operations are modelled on `String.data` (lists of
  characters); `str.lower` is modelled as character-wise `Char.toLower`,
  which agrees with Python on the ASCII column names used by the pipeline;
* numeric values carried through merges are an arbitrary type `V`;
  vulnerability indices compared against thresholds are rationals, which is
  exact for the decimal literals the code uses.
-/

namespace Derpin

/-- Substring test on character lists: `isSubstrChars n h` is the Python
membership test `n in h` for strings. -/
def isSubstrChars (needle : List Char) : List Char → Bool
  | [] => needle.isEmpty
  | c :: rest => needle.isPrefixOf (c :: rest) || isSubstrChars needle rest

/-- Python `needle in hay` on strings. -/
def strContains (hay needle : String) : Bool :=
  isSubstrChars needle.data hay.data

/-- Python `str.lower` (character-wise; faithful for ASCII headers). -/
def lowerStr (s : String) : String :=
  ⟨s.data.map Char.toLower⟩

/-- Boolean lexicographic less-or-equal on character lists, the order Python
uses to compare strings (and pandas to sort string keys). -/
def lexLE : List Char → List Char → Bool
  | [], _ => true
  | _ :: _, [] => false
  | a :: s, b :: t => if a < b then true else if b < a then false else lexLE s t

/-- Boolean string comparison used to model `pandas.sort_values` on keys. -/
def strLE (s t : String) : Bool :=
  lexLE s.data t.data

/-- Header-matching predicate of the key-column detector,
`Derpin_Notebook.py` lines 79-80: the lowered name contains `district` or
`name`. -/
def keyMatch (c : String) : Bool :=
  strContains (lowerStr c) "district" || strContains (lowerStr c) "name"

/-- The scanning loop of `Derpin_Notebook.py` lines 77-82 (first matching
column name wins, then `break`). -/
def findDistrictCol : List String → Option String
  | [] => none
  | c :: rest => if keyMatch c then some c else findDistrictCol rest

/-- Key-column detection, `Derpin_Notebook.py` lines 76-84: the scan, then
the positional fallback to column index 1 for tables with at least two
columns. -/
def district_col (cols : List String) : Option String :=
  match findDistrictCol cols with
  | some c => some c
  | none => if 2 ≤ cols.length then cols[1]? else none

/-- Renaming one column name, the effect of `DataFrame.rename` on a
column list (every occurrence of the old name is replaced). -/
def renameCol (old new : String) (cols : List String) : List String :=
  cols.map (fun c => if c = old then new else c)

/-- Canonical value-column name, `Derpin_Notebook.py` line 93:
with the parenthesized unit when a unit is registered, without it
otherwise. -/
def value_col_new (pretty unit : String) : String :=
  if unit = "" then "Average Consumption adequacy of " ++ pretty
  else "Average Consumption adequacy of " ++ pretty ++ " (" ++ unit ++ ")"

/-- Column list after key identification, `Derpin_Notebook.py` lines 76-87:
the detected key column (if any) is renamed to `district`. -/
def keyIdentified (cols : List String) : List String :=
  match district_col cols with
  | some c => renameCol c "district" cols
  | none => cols

/-- Column-level effect of the per-source cleaning cell,
`Derpin_Notebook.py` lines 72-99: tables with fewer than two columns pass
through; otherwise the key column is identified and renamed to `district`,
and then the last column is renamed to the canonical value-column name.
Lines 96-98 reassign the same last column in the degenerate case, so the
guard is a no-op and the rename happens unconditionally. -/
def cleanCols (pretty unit : String) (cols : List String) : List String :=
  if cols.length < 2 then cols
  else
    let cols1 := keyIdentified cols
    let lastCol := cols1.getLast?.getD ""
    let lastCol1 :=
      if lastCol = "district" ∧ 2 ≤ cols1.length then cols1.getLast?.getD ""
      else lastCol
    renameCol lastCol1 (value_col_new pretty unit) cols1

/-- Keep-first deduplication by key with an accumulator of already-seen
keys; `dedupPairsAux seen l` keeps the first row of `l` for each key not in
`seen`. -/
def dedupPairsAux {V : Type} (seen : List String) : List (String × V) → List (String × V)
  | [] => []
  | p :: rest =>
    if p.1 ∈ seen then dedupPairsAux seen rest
    else p :: dedupPairsAux (p.1 :: seen) rest

/-- The effect of `DataFrame.drop_duplicates(subset=[key], keep=first)` on
(key, value) rows, `Derpin_Notebook.py` lines 100-102 and 160. -/
def dedupPairs {V : Type} (l : List (String × V)) : List (String × V) :=
  dedupPairsAux [] l

/-- A column of a loaded table together with its pandas dtype class
(`numeric` is true when `select_dtypes(include=[np.number])` keeps it). -/
structure ColMeta where
  name : String
  numeric : Bool
deriving DecidableEq

/-- The non-key columns, `Derpin_Notebook.py` line 133. -/
def other_cols (cols : List ColMeta) : List String :=
  (cols.map ColMeta.name).filter (fun c => c != "district")

/-- The numeric columns other than the key,
`Derpin_Notebook.py` lines 145-146. -/
def numeric_cols (cols : List ColMeta) : List String :=
  ((cols.filter ColMeta.numeric).map ColMeta.name).filter (fun c => c != "district")

/-- Merge-time value-column selection, `Derpin_Notebook.py` lines 132-151:
first a column containing the canonical phrase, else the first numeric
non-key column, else the last non-key column; `none` when the table has no
non-key column (line 134, the table is skipped). -/
def val_col (cols : List ColMeta) : Option String :=
  if other_cols cols = [] then none
  else
    match (other_cols cols).find? (fun c => strContains c "Average Consumption adequacy") with
    | some c => some c
    | none =>
      match numeric_cols cols with
      | nc :: _ => some nc
      | [] => (other_cols cols).getLast?

/-- A cleaned two-column source table: the canonical value-column name and
the (entity key, value) rows. -/
structure STable (V : Type) where
  colName : String
  rows : List (String × V)
deriving DecidableEq

/-- A wide merged table: the value-column names and, per row, the entity
key with one optional cell per value column (`none` is pandas `NaN`). -/
structure WTable (V : Type) where
  cols : List String
  rows : List (String × List (Option V))
deriving DecidableEq

/-- The entity-key column of a wide table, in row order. -/
def WTable.keys {V : Type} (w : WTable V) : List String :=
  w.rows.map Prod.fst

/-- The cleaned two-column table built in `Derpin_Notebook.py` lines
157-160: select the key and value columns, rename the value column, and
drop duplicate keys keeping the first row. -/
def cleanTwoCol {V : Type} (newCol : String) (pairs : List (String × V)) : STable V :=
  ⟨newCol, dedupPairs pairs⟩

/-- A two-column table viewed as a wide table with a single value column. -/
def toWide {V : Type} (t : STable V) : WTable V :=
  ⟨[t.colName], t.rows.map (fun p => (p.1, [some p.2]))⟩

/-- The rows a single left row contributes to an outer join: one copy per
matching right row, or the row padded with missing cells when the key is
absent from the right table. -/
def mergeRow {V : Type} (r : WTable V) (p : String × List (Option V)) :
    List (String × List (Option V)) :=
  match r.rows.filter (fun q => q.1 == p.1) with
  | [] => [(p.1, p.2 ++ List.replicate r.cols.length none)]
  | m :: ms => (m :: ms).map (fun q => (p.1, p.2 ++ q.2))

/-- Outer join on the entity-key column, the `pd.merge(..., how=outer)`
of `Derpin_Notebook.py` lines 168 and 633: left rows (joined with all
matching right rows) first, then the right rows whose key has no match;
value-column names occurring on both sides get the pandas default
suffixes. -/
def pdMerge {V : Type} (l r : WTable V) : WTable V where
  cols :=
    l.cols.map (fun c => if c ∈ r.cols then c ++ "_x" else c)
      ++ r.cols.map (fun c => if c ∈ l.cols then c ++ "_y" else c)
  rows :=
    l.rows.flatMap (mergeRow r)
      ++ (r.rows.filter (fun q => l.rows.all (fun p => p.1 != q.1))).map
          (fun q => (q.1, List.replicate l.cols.length (none : Option V) ++ q.2))

/-- One step of the merge fold. -/
def mergeStep {V : Type} (acc : WTable V) (t : STable V) : WTable V :=
  pdMerge acc (toWide t)

/-- Shape invariant of a wide table: every row has one cell per value
column. -/
def WTable.Wf {V : Type} (w : WTable V) : Prop :=
  ∀ p ∈ w.rows, p.2.length = w.cols.length

/-- The `functools.reduce` fold of outer joins over the cleaned tables,
`Derpin_Notebook.py` line 168 (and 633); `none` when there is no table to
merge (lines 165-166 and the guard at line 127). -/
def mergeAll {V : Type} : List (STable V) → Option (WTable V)
  | [] => none
  | t :: ts => some (ts.foldl mergeStep (toWide t))

instance {β : Type} : DecidableRel (fun (a b : String × β) => strLE a.1 b.1 = true) :=
  fun _ _ => instDecidableEqBool _ _

/-- Sorting the rows by entity-key value ascending,
`DataFrame.sort_values` at `Derpin_Notebook.py` line 169. -/
def sortByKey {V : Type} (w : WTable V) : WTable V :=
  ⟨w.cols, List.insertionSort (fun a b => strLE a.1 b.1 = true) w.rows⟩

/-- The merged nutrient wide table, `Derpin_Notebook.py` lines 168-169:
the fold of outer joins followed by the ascending sort on `district`. -/
def merged_nutrients {V : Type} (ts : List (STable V)) : Option (WTable V) :=
  (mergeAll ts).map sortByKey

/-- The vulnerability-index tables as loaded in `Derpin_Notebook.py` lines
627-631: each file is read and its two columns are relabeled to
(`Category`, indicator name); no deduplication is applied. -/
def indexTables {V : Type} (inputs : List (String × List (String × V))) : List (STable V) :=
  inputs.map (fun pr => ⟨pr.1, pr.2⟩)

/-- The merged vulnerability-index table, `Derpin_Notebook.py` line 633:
the fold of outer joins on `Category` (no sort step; the later rename of
the key column to `Region` does not change rows). -/
def merged_index {V : Type} (ts : List (STable V)) : Option (WTable V) :=
  mergeAll ts

/-- The kilocalorie column name produced by the canonical naming scheme. -/
def kcalOld : String := "Average Consumption adequacy of Kilocaleries (kcal)"

/-- The special-cased kilocalorie column name without the `Average`
prefix, the target of the rename at `Derpin_Notebook.py` line 204. -/
def kcalNew : String := "Consumption adequacy of Kilocaleries (kcal)"

/-- The column header written to `merged_nutrients.csv` by
`Derpin_Notebook.py` line 192: the key column followed by the value
columns of the merged table as they are at that point of the script, i.e.
before the rename at line 204. -/
def persistedNutrientCols {V : Type} (ts : List (STable V)) : List String :=
  match merged_nutrients ts with
  | some w => "district" :: w.cols
  | none => []

/-- The columns of the in-memory table after the rename at
`Derpin_Notebook.py` line 204, which happens after the file was written. -/
def postRenameCols {V : Type} (ts : List (STable V)) : List String :=
  (persistedNutrientCols ts).map (fun c => if c = kcalOld then kcalNew else c)

/-- State of a configured input path on disk: absent, present but not
parseable, or present with parseable content `a`. -/
inductive FileEntry (α : Type)
  | missing
  | malformed
  | content (a : α)
deriving DecidableEq

/-- Python `os.path.exists`, `Derpin_Notebook.py` line 68. -/
def fileExists {α : Type} (fs : String → FileEntry α) (p : String) : Bool :=
  match fs p with
  | .missing => false
  | _ => true

/-- Python `pd.read_csv`: raises `FileNotFoundError` on a missing path and
a parser error on malformed content, modelled as `Except`. -/
def read_csv {α : Type} (fs : String → FileEntry α) (p : String) : Except String α :=
  match fs p with
  | .missing => Except.error ("FileNotFoundError: " ++ p)
  | .malformed => Except.error ("ParserError: " ++ p)
  | .content a => Except.ok a

/-- The configured nutrient indicator files, `Derpin_Notebook.py`
lines 26-30. -/
def csv_files : List String :=
  ["nutrients/Calcium.csv", "nutrients/Foliate.csv", "nutrients/Iron.csv",
   "nutrients/Kilocaleries.csv", "nutrients/Proteins.csv", "nutrients/Riboflavin.csv",
   "nutrients/Thiamin.csv", "nutrients/VitaminA.csv", "nutrients/VitaminB12.csv",
   "nutrients/VitaminB6.csv", "nutrients/VitaminC.csv", "nutrients/Zinc.csv"]

/-- The nutrient loading loop, `Derpin_Notebook.py` lines 66-71: a path
that does not exist is recorded in `missing_files` and skipped; an
existing path is read with `read_csv`, whose exception aborts the run
(`Except.error`). The result pairs the missing-files report with the
loaded contents. -/
def loadNutrients {α : Type} (fs : String → FileEntry α) :
    List String → Except String (List String × List (String × α))
  | [] => Except.ok ([], [])
  | f :: rest =>
    if fileExists fs f = false then
      match loadNutrients fs rest with
      | Except.ok (ms, ds) => Except.ok (f :: ms, ds)
      | Except.error e => Except.error e
    else
      match read_csv fs f with
      | Except.error e => Except.error e
      | Except.ok a =>
        match loadNutrients fs rest with
        | Except.ok (ms, ds) => Except.ok (ms, (f, a) :: ds)
        | Except.error e => Except.error e

/-- The configured vulnerability-index files, `Derpin_Notebook.py`
lines 619-625. -/
def indexFiles : List (String × String) :=
  [("Index datasets/composite-vulnerability.csv", "Composite Vulnerability Index"),
   ("Index datasets/health-system-vulnerabil.csv", "Health System Vulnerability Index"),
   ("Index datasets/mean-adequacy-ratio-inde.csv", "Mean Adequacy Ratio Index"),
   ("Index datasets/per-capita-food-consumpt.csv", "Per Capita Food Consumption Index"),
   ("Index datasets/vulnerability-to-climate.csv", "Vulnerability to Climate Change Index")]

/-- The vulnerability-index loading loop, `Derpin_Notebook.py` lines
627-631: every configured path is read unconditionally (no existence
check, no exception handling), so any read error aborts the run. -/
def loadIndex {α : Type} (fs : String → FileEntry α) :
    List (String × String) → Except String (List (String × α))
  | [] => Except.ok []
  | pr :: rest =>
    match read_csv fs pr.1 with
    | Except.error e => Except.error e
    | Except.ok a =>
      match loadIndex fs rest with
      | Except.ok ds => Except.ok ((pr.2, a) :: ds)
      | Except.error e => Except.error e

/-- A concrete filesystem used to exercise the loaders: every path holds
parseable content except the first configured index path, which is
absent. -/
def fsOneIndexMissing : String → FileEntry ℕ :=
  fun p => if p = "Index datasets/composite-vulnerability.csv" then FileEntry.missing
    else FileEntry.content 0

/-- The risk classifier of `dashboard.py` lines 82-89 with an explicit
thresholds argument. -/
def get_risk_level_with (value : ℚ) (thresholds : List ℚ) : String × String :=
  if thresholds.getD 1 0 ≤ value then ("High", "🔴")
  else if thresholds.getD 0 0 ≤ value then ("Medium", "🟡")
  else ("Low", "🟢")

/-- The risk classifier applied with its default thresholds
`[0.3, 0.6]`. -/
def get_risk_level (value : ℚ) : String × String :=
  get_risk_level_with value [3/10, 6/10]

/-- The critical-alert filter of `dashboard.py` line 226: regions whose
composite index is at least 0.7. -/
def high_vuln_regions (rows : List (String × ℚ)) : List (String × ℚ) :=
  rows.filter (fun r => decide ((7 : ℚ)/10 ≤ r.2))

/-- The warning-band filter of `dashboard.py` lines 227-228: regions whose
composite index lies in [0.6, 0.7). -/
def medium_vuln_regions (rows : List (String × ℚ)) : List (String × ℚ) :=
  rows.filter (fun r => decide ((6 : ℚ)/10 ≤ r.2) && decide (r.2 < 7/10))

end Derpin

namespace Derpin

theorem lexLE_iff_not_lex :
    ∀ s t : List Char, lexLE s t = true ↔ ¬ List.Lex (· < ·) t s := by
  intro s
  induction s with
  | nil =>
    intro t
    simp only [lexLE, true_iff]
    intro h
    cases h
  | cons a s ih =>
    intro t
    cases t with
    | nil =>
      constructor
      · intro h
        exact absurd h (by simp [lexLE])
      · intro h
        exact absurd List.Lex.nil h
    | cons b t =>
      rcases lt_trichotomy a b with hab | heq | hba
      · constructor
        · intro _ hl
          cases hl with
          | cons h2 => exact absurd hab (lt_irrefl _)
          | rel h2 => exact absurd (lt_trans hab h2) (lt_irrefl _)
        · intro _
          simp [lexLE, hab]
      · subst heq
        have hirr : ¬ a < a := lt_irrefl a
        constructor
        · intro h hl
          have hst : lexLE s t = true := by simpa [lexLE, hirr] using h
          exact (ih t).mp hst (List.Lex.cons_iff.mp hl)
        · intro h
          have hst : lexLE s t = true :=
            (ih t).mpr (fun hl => h (List.Lex.cons_iff.mpr hl))
          simpa [lexLE, hirr] using hst
      · constructor
        · intro h
          have hfalse : False := by
            simp [lexLE, asymm hba, hba] at h
          exact hfalse.elim
        · intro h
          exact absurd (List.Lex.rel hba) h

theorem strLE_iff_le (s t : String) : strLE s t = true ↔ s ≤ t := by
  rw [strLE, lexLE_iff_not_lex, String.le_iff_toList_le]
  exact @not_lt (List Char) _ t.toList s.toList

theorem findDistrictCol_eq_find (cols : List String) :
    findDistrictCol cols = cols.find? keyMatch := by
  induction cols with
  | nil => rfl
  | cons c rest ih =>
    by_cases h : keyMatch c = true
    · simp [findDistrictCol, List.find?, h]
    · simp only [Bool.not_eq_true] at h
      simp [findDistrictCol, List.find?, h, ih]

/-- C7: key-column detection scans the names in order, case-insensitively,
for the substrings `district` or `name`; the first match wins, and with no
match the second column (index 1) is taken positionally when it exists.
The three scenario columns from the specification each select the right
key. -/
theorem district_col_spec :
    (∀ cols : List String,
      district_col cols = ((cols.find? keyMatch).orElse (fun _ => cols[1]?)))
    ∧ district_col ["region", "District Name", "value"] = some "District Name"
    ∧ district_col ["value", "district"] = some "district"
    ∧ district_col ["code", "region", "value"] = some "region" := by
  refine ⟨?_, by decide, by decide, by decide⟩
  intro cols
  rw [district_col, findDistrictCol_eq_find]
  cases hf : cols.find? keyMatch with
  | some c => rfl
  | none =>
    by_cases h2 : 2 ≤ cols.length
    · simp [Option.orElse, h2]
    · have hnone : cols[1]? = none := by
        apply List.getElem?_eq_none
        omega
      simp [Option.orElse, h2, hnone]

theorem value_col_new_ne_district (p u : String) : value_col_new p u ≠ "district" := by
  have hpre : ("Average Consumption adequacy of " : String).length = 32 := rfl
  have hdis : ("district" : String).length = 8 := rfl
  unfold value_col_new
  split_ifs with h
  · intro he
    have hl := congrArg String.length he
    rw [String.length_append, hpre, hdis] at hl
    omega
  · intro he
    have hl := congrArg String.length he
    rw [String.length_append, String.length_append, String.length_append,
      String.length_append, hpre, hdis] at hl
    omega

theorem keyIdentified_length (cols : List String) :
    (keyIdentified cols).length = cols.length := by
  unfold keyIdentified
  cases district_col cols <;> simp [renameCol]

/-- C2 (counterexample): on a table whose columns are `[value, District]`,
key identification makes `district` the last column, and the cleaning step
then renames it to the canonical value-column name instead of skipping the
rename and leaving the table unchanged. -/
theorem cleanCols_degenerate_renames :
    cleanCols "Calcium" "mg" ["value", "District"] =
      ["value", "Average Consumption adequacy of Calcium (mg)"] ∧
    cleanCols "Calcium" "mg" ["value", "District"] ≠ ["value", "district"] ∧
    "district" ∉ cleanCols "Calcium" "mg" ["value", "District"] := by
  decide

/-- C2 (amended): for a table with at least two columns, the cleaning step
always renames the last column (after key identification) to the canonical
value-column name; in the degenerate case where that last column is
`district`, the rename is applied anyway, so the key column itself is
renamed away rather than the table being left unchanged. -/
theorem cleanCols_last_renamed (pretty unit : String) (cols : List String)
    (h2 : 2 ≤ cols.length) :
    (cleanCols pretty unit cols).getLast? = some (value_col_new pretty unit) ∧
    ((keyIdentified cols).getLast?.getD "" = "district" →
      "district" ∉ cleanCols pretty unit cols) := by
  have hne : ¬ cols.length < 2 := by omega
  have hki_ne : keyIdentified cols ≠ [] := by
    intro h
    have := keyIdentified_length cols
    rw [h] at this
    simp at this
    omega
  have hclean : cleanCols pretty unit cols =
      renameCol ((keyIdentified cols).getLast?.getD "") (value_col_new pretty unit)
        (keyIdentified cols) := by
    unfold cleanCols
    rw [if_neg hne]
    show renameCol
        (if (keyIdentified cols).getLast?.getD "" = "district" ∧ 2 ≤ (keyIdentified cols).length
          then (keyIdentified cols).getLast?.getD "" else (keyIdentified cols).getLast?.getD "")
        (value_col_new pretty unit) (keyIdentified cols) = _
    rw [ite_self]
  have hgl := List.getLast?_eq_getLast (keyIdentified cols) hki_ne
  have hlastD : (keyIdentified cols).getLast?.getD "" = (keyIdentified cols).getLast hki_ne := by
    rw [hgl]
    rfl
  constructor
  · rw [hclean, renameCol, hlastD, List.getLast?_map, hgl]
    simp
  · intro hdeg hmem
    rw [hclean, renameCol] at hmem
    obtain ⟨c, hc, hfc⟩ := List.mem_map.mp hmem
    by_cases hcd : c = (keyIdentified cols).getLast?.getD ""
    · rw [if_pos hcd] at hfc
      exact value_col_new_ne_district pretty unit hfc
    · rw [if_neg hcd] at hfc
      rw [hdeg] at hcd
      exact hcd hfc

theorem cleanCols_last_renamed_witness :
    2 ≤ (["Name", "value"] : List String).length ∧
    ((cleanCols "Calcium" "mg" ["Name", "value"]).getLast? =
        some (value_col_new "Calcium" "mg") ∧
      ((keyIdentified ["Name", "value"]).getLast?.getD "" = "district" →
        "district" ∉ cleanCols "Calcium" "mg" ["Name", "value"])) :=
  ⟨by decide, cleanCols_last_renamed "Calcium" "mg" ["Name", "value"] (by decide)⟩

theorem mem_dedupPairsAux {V : Type} :
    ∀ (l : List (String × V)) (seen : List String) (q : String × V),
      q ∈ dedupPairsAux seen l → q ∈ l := by
  intro l
  induction l with
  | nil =>
    intro seen q hq
    exact absurd hq (by simp [dedupPairsAux])
  | cons p rest ih =>
    intro seen q hq
    simp only [dedupPairsAux] at hq
    by_cases hp : p.1 ∈ seen
    · rw [if_pos hp] at hq
      exact List.mem_cons_of_mem _ (ih seen q hq)
    · rw [if_neg hp] at hq
      rcases List.mem_cons.mp hq with h | h
      · exact h ▸ List.mem_cons_self _ _
      · exact List.mem_cons_of_mem _ (ih _ q h)

theorem keys_dedupPairsAux_nodup {V : Type} :
    ∀ (l : List (String × V)) (seen : List String),
      ((dedupPairsAux seen l).map Prod.fst).Nodup ∧
      ∀ k ∈ (dedupPairsAux seen l).map Prod.fst, k ∉ seen := by
  intro l
  induction l with
  | nil =>
    intro seen
    simp [dedupPairsAux]
  | cons p rest ih =>
    intro seen
    by_cases hp : p.1 ∈ seen
    · simpa [dedupPairsAux, hp] using ih seen
    · obtain ⟨ihn, ihs⟩ := ih (p.1 :: seen)
      constructor
      · simp only [dedupPairsAux, if_neg hp, List.map_cons, List.nodup_cons]
        refine ⟨?_, ihn⟩
        intro hmem
        exact (ihs _ hmem) (List.mem_cons_self _ _)
      · intro k hk
        simp only [dedupPairsAux, if_neg hp, List.map_cons, List.mem_cons] at hk
        rcases hk with h | h
        · exact h ▸ hp
        · intro hks
          exact (ihs k h) (List.mem_cons_of_mem _ hks)

theorem find?_dedupPairsAux {V : Type} :
    ∀ (l : List (String × V)) (seen : List String) (k : String),
      k ∉ seen →
      (dedupPairsAux seen l).find? (fun q => q.1 == k) = l.find? (fun q => q.1 == k) := by
  intro l
  induction l with
  | nil =>
    intro seen k _
    rfl
  | cons p rest ih =>
    intro seen k hk
    by_cases hp : p.1 ∈ seen
    · have hpk : (p.1 == k) = false := by
        simp only [beq_eq_false_iff_ne, ne_eq]
        intro h
        exact hk (h ▸ hp)
      simp only [dedupPairsAux, if_pos hp, List.find?, hpk]
      exact ih seen k hk
    · simp only [dedupPairsAux, if_neg hp]
      by_cases hpk : (p.1 == k) = true
      · simp only [List.find?, hpk]
      · have hf : (p.1 == k) = false := by
          cases h : (p.1 == k)
          · rfl
          · exact absurd h hpk
        simp only [List.find?, hf]
        apply ih
        intro hks
        rcases List.mem_cons.mp hks with h | h
        · exact hpk (by simp [h])
        · exact hk h

/-- C6 (counterexample): the vulnerability-index loader relabels columns
but applies no deduplication, so an index file with two rows for the same
region keeps both; the merged index table then carries the duplicate key,
violating the claimed invariant for vulnerability-index tables. -/
theorem index_tables_keep_duplicates :
    indexTables [("Composite Vulnerability Index", [("Acholi", (1 : ℕ)), ("Acholi", 2)])] =
      [STable.mk "Composite Vulnerability Index" [("Acholi", 1), ("Acholi", 2)]] ∧
    (merged_index (indexTables
        [("Composite Vulnerability Index", [("Acholi", (1 : ℕ)), ("Acholi", 2)])])).map
      WTable.keys = some ["Acholi", "Acholi"] ∧
    ¬ (["Acholi", "Acholi"] : List String).Nodup := by
  decide

/-- C6 (amended): the per-source cleaning of the nutrient pipeline does
guarantee the invariant: the cleaned two-column table has pairwise
distinct entity-key values (compared as case-sensitive strings), the row
kept for each key is exactly the first-encountered row in file order, and
every kept row comes from the source; the vulnerability-index tables are
loaded without deduplication and do not satisfy the invariant. -/
theorem cleanTwoCol_nodup_keep_first (V : Type) (nm : String) (l : List (String × V)) :
    (((cleanTwoCol nm l).rows.map Prod.fst).Nodup) ∧
    (∀ k, (cleanTwoCol nm l).rows.find? (fun q => q.1 == k) =
      l.find? (fun q => q.1 == k)) ∧
    (∀ q ∈ (cleanTwoCol nm l).rows, q ∈ l) := by
  refine ⟨(keys_dedupPairsAux_nodup l []).1, ?_, mem_dedupPairsAux l []⟩
  intro k
  exact find?_dedupPairsAux l [] k (by simp)

theorem toWide_keysEq {V : Type} (t : STable V) :
    (toWide t).rows.map Prod.fst = t.rows.map Prod.fst := by
  unfold toWide
  rw [List.map_map]
  rfl

theorem length_filter_key_le {β : Type} :
    ∀ (rows : List (String × β)), (rows.map Prod.fst).Nodup →
      ∀ k, (rows.filter (fun q => q.1 == k)).length ≤ 1 := by
  intro rows
  induction rows with
  | nil =>
    intro _ k
    simp
  | cons p rest ih =>
    intro h k
    simp only [List.map_cons, List.nodup_cons] at h
    obtain ⟨hp, hrest⟩ := h
    by_cases hpk : (p.1 == k) = true
    · have hk2 : p.1 = k := by simpa using hpk
      have hempty : rest.filter (fun q => q.1 == k) = [] := by
        apply List.filter_eq_nil_iff.mpr
        intro q hq hbeq
        have hq1 : q.1 = k := by simpa using hbeq
        apply hp
        rw [hk2]
        exact hq1 ▸ List.mem_map_of_mem Prod.fst hq
      simp [List.filter_cons, hpk, hempty]
    · have hf : (p.1 == k) = false := by
        cases hb : (p.1 == k)
        · rfl
        · exact absurd hb hpk
      simp only [List.filter_cons, hf, Bool.false_eq_true, if_false]
      exact ih hrest k

theorem mem_mergeRow {V : Type} (r : WTable V) (p q : String × List (Option V))
    (hq : q ∈ mergeRow r p) :
    q.1 = p.1 ∧
    ((q.2 = p.2 ++ List.replicate r.cols.length none ∧
        r.rows.filter (fun q2 => q2.1 == p.1) = []) ∨
      (∃ m ∈ r.rows, m.1 = p.1 ∧ q.2 = p.2 ++ m.2)) := by
  unfold mergeRow at hq
  split at hq
  next hfil =>
    simp only [List.mem_singleton] at hq
    subst hq
    exact ⟨rfl, Or.inl ⟨rfl, hfil⟩⟩
  next m ms hfil =>
    obtain ⟨q2, hq2, heq⟩ := List.mem_map.mp hq
    have hq2f : q2 ∈ r.rows.filter (fun q2 => q2.1 == p.1) := by
      rw [hfil]
      exact hq2
    have hq2r : q2 ∈ r.rows := List.mem_of_mem_filter hq2f
    have hq2k : q2.1 = p.1 := by
      have := List.of_mem_filter hq2f
      simpa using this
    subst heq
    exact ⟨rfl, Or.inr ⟨q2, hq2r, hq2k, rfl⟩⟩

theorem mergeRow_ne_nil {V : Type} (r : WTable V) (p : String × List (Option V)) :
    mergeRow r p ≠ [] := by
  unfold mergeRow
  split
  · simp
  · simp

theorem keys_flatMap_mergeRow {V : Type} (r : WTable V)
    (hr : (r.rows.map Prod.fst).Nodup) :
    ∀ rows : List (String × List (Option V)),
      (rows.flatMap (mergeRow r)).map Prod.fst = rows.map Prod.fst := by
  intro rows
  induction rows with
  | nil => rfl
  | cons p rest ih =>
    have hone : (mergeRow r p).map Prod.fst = [p.1] := by
      unfold mergeRow
      split
      next hfil => rfl
      next m ms hfil =>
        have hlen := length_filter_key_le r.rows hr p.1
        rw [hfil] at hlen
        simp only [List.length_cons] at hlen
        have hms : ms = [] := by
          have : ms.length = 0 := by omega
          exact List.eq_nil_of_length_eq_zero this
        subst hms
        rfl
    simp only [List.flatMap_cons, List.map_append, hone, ih]
    rfl

theorem keys_pdMerge {V : Type} (l r : WTable V) (hr : (r.rows.map Prod.fst).Nodup) :
    (pdMerge l r).keys =
      l.rows.map Prod.fst
        ++ (r.rows.filter (fun q => l.rows.all (fun p => p.1 != q.1))).map Prod.fst := by
  unfold pdMerge WTable.keys
  simp only [List.map_append, keys_flatMap_mergeRow r hr l.rows, List.map_map]
  rfl

theorem nodup_keys_pdMerge {V : Type} (l r : WTable V)
    (hl : (l.rows.map Prod.fst).Nodup) (hr : (r.rows.map Prod.fst).Nodup) :
    ((pdMerge l r).keys).Nodup := by
  rw [keys_pdMerge l r hr, List.nodup_append]
  refine ⟨hl, ?_, ?_⟩
  · have hsub : List.Sublist
        ((r.rows.filter (fun q => l.rows.all (fun p => p.1 != q.1))).map Prod.fst)
        (r.rows.map Prod.fst) :=
      (List.filter_sublist r.rows).map Prod.fst
    exact hr.sublist hsub
  · intro k hkl hkr
    obtain ⟨q, hq, hqk⟩ := List.mem_map.mp hkr
    have hall := List.of_mem_filter hq
    rw [List.all_eq_true] at hall
    obtain ⟨p, hp, hpk⟩ := List.mem_map.mp hkl
    have hne := hall p hp
    rw [bne_iff_ne] at hne
    exact hne (by rw [hpk, hqk])

theorem cols_mergeStep_length {V : Type} (acc : WTable V) (t : STable V) :
    (mergeStep acc t).cols.length = acc.cols.length + 1 := by
  simp [mergeStep, pdMerge, toWide]

theorem toWide_wf {V : Type} (t : STable V) : (toWide t).Wf := by
  intro p hp
  obtain ⟨q, _, heq⟩ := List.mem_map.mp hp
  subst heq
  rfl

theorem mergeStep_wf {V : Type} (acc : WTable V) (t : STable V) (hacc : acc.Wf) :
    (mergeStep acc t).Wf := by
  intro p hp
  rw [cols_mergeStep_length]
  simp only [mergeStep, pdMerge] at hp
  rcases List.mem_append.mp hp with hp | hp
  · obtain ⟨q, hq, hmem⟩ := List.mem_flatMap.mp hp
    obtain ⟨_, hcase⟩ := mem_mergeRow (toWide t) q p hmem
    rcases hcase with ⟨heq, _⟩ | ⟨m, hm, _, heq⟩
    · rw [heq]
      simp only [List.length_append, List.length_replicate]
      rw [hacc q hq]
      rfl
    · rw [heq]
      simp only [List.length_append]
      rw [hacc q hq]
      have hm1 : m.2.length = 1 := by
        obtain ⟨x, _, hxe⟩ := List.mem_map.mp hm
        subst hxe
        rfl
      rw [hm1]
  · obtain ⟨q, hq, heq⟩ := List.mem_map.mp hp
    subst heq
    simp only [List.length_append, List.length_replicate]
    have hq1 : q.2.length = 1 := by
      have hqr : q ∈ (toWide t).rows := List.mem_of_mem_filter hq
      obtain ⟨x, _, hxe⟩ := List.mem_map.mp hqr
      subst hxe
      rfl
    rw [hq1]

theorem keys_mergeStep_left {V : Type} (acc : WTable V) (t : STable V) (k : String)
    (hk : k ∈ acc.keys) : k ∈ (mergeStep acc t).keys := by
  obtain ⟨p, hp, hpk⟩ := List.mem_map.mp hk
  have hne := mergeRow_ne_nil (toWide t) p
  obtain ⟨q, hq⟩ := List.exists_mem_of_ne_nil _ hne
  have hqk : q.1 = p.1 := (mem_mergeRow _ p q hq).1
  apply List.mem_map.mpr
  refine ⟨q, ?_, by rw [hqk, hpk]⟩
  simp only [mergeStep, pdMerge]
  apply List.mem_append.mpr
  left
  exact List.mem_flatMap.mpr ⟨p, hp, hq⟩

theorem keys_mergeStep_right {V : Type} (acc : WTable V) (t : STable V) (k : String)
    (hk : k ∈ t.rows.map Prod.fst) : k ∈ (mergeStep acc t).keys := by
  by_cases hin : k ∈ acc.keys
  · exact keys_mergeStep_left acc t k hin
  · obtain ⟨x, hx, hxk⟩ := List.mem_map.mp hk
    have hxr : (x.1, [some x.2]) ∈ (toWide t).rows :=
      List.mem_map.mpr ⟨x, hx, rfl⟩
    have hfil : (x.1, [some x.2]) ∈ (toWide t).rows.filter
        (fun q => acc.rows.all (fun p => p.1 != q.1)) := by
      apply List.mem_filter.mpr
      refine ⟨hxr, ?_⟩
      rw [List.all_eq_true]
      intro p hp
      rw [bne_iff_ne]
      intro hcontra
      apply hin
      apply List.mem_map.mpr
      refine ⟨p, hp, ?_⟩
      rw [← hxk]
      exact hcontra
    apply List.mem_map.mpr
    refine ⟨(x.1, List.replicate acc.cols.length none ++ [some x.2]), ?_, hxk⟩
    simp only [mergeStep, pdMerge]
    apply List.mem_append.mpr
    right
    exact List.mem_map.mpr ⟨(x.1, [some x.2]), hfil, rfl⟩

theorem keys_foldl_left {V : Type} :
    ∀ (ts : List (STable V)) (acc : WTable V) (k : String),
      k ∈ acc.keys → k ∈ (ts.foldl mergeStep acc).keys := by
  intro ts
  induction ts with
  | nil =>
    intro acc k hk
    exact hk
  | cons t ts ih =>
    intro acc k hk
    exact ih (mergeStep acc t) k (keys_mergeStep_left acc t k hk)

theorem keys_foldl_table {V : Type} :
    ∀ (ts : List (STable V)) (acc : WTable V) (t : STable V), t ∈ ts →
      ∀ k ∈ t.rows.map Prod.fst, k ∈ (ts.foldl mergeStep acc).keys := by
  intro ts
  induction ts with
  | nil =>
    intro acc t ht
    exact absurd ht (List.not_mem_nil t)
  | cons u ts ih =>
    intro acc t ht k hk
    rcases List.mem_cons.mp ht with h | h
    · subst h
      exact keys_foldl_left ts (mergeStep acc t) k (keys_mergeStep_right acc t k hk)
    · exact ih (mergeStep acc u) t h k hk

theorem nodup_keys_foldl {V : Type} :
    ∀ (ts : List (STable V)) (acc : WTable V),
      acc.keys.Nodup → (∀ t ∈ ts, (t.rows.map Prod.fst).Nodup) →
      ((ts.foldl mergeStep acc).keys).Nodup := by
  intro ts
  induction ts with
  | nil =>
    intro acc h _
    exact h
  | cons t ts ih =>
    intro acc hacc hts
    apply ih
    · have hr : ((toWide t).rows.map Prod.fst).Nodup := by
        rw [toWide_keysEq]
        exact hts t (List.mem_cons_self t ts)
      exact nodup_keys_pdMerge acc (toWide t) hacc hr
    · intro u hu
      exact hts u (List.mem_cons_of_mem t hu)

theorem mem_mergeStep_rows {V : Type} (acc : WTable V) (t : STable V)
    (k : String) (vs : List (Option V)) (hp : (k, vs) ∈ (mergeStep acc t).rows) :
    (∃ q ∈ acc.rows, k = q.1 ∧ ∃ tail : List (Option V), vs = q.2 ++ tail ∧
      (k ∉ t.rows.map Prod.fst → tail = [none])) ∨
    (k ∈ t.rows.map Prod.fst ∧ ∃ tail : List (Option V),
      vs = List.replicate acc.cols.length none ++ tail) := by
  simp only [mergeStep, pdMerge] at hp
  rcases List.mem_append.mp hp with hp | hp
  · obtain ⟨q, hq, hmem⟩ := List.mem_flatMap.mp hp
    obtain ⟨hkey, hcase⟩ := mem_mergeRow (toWide t) q (k, vs) hmem
    have hkey2 : k = q.1 := hkey
    left
    refine ⟨q, hq, hkey2, ?_⟩
    rcases hcase with ⟨heq, _⟩ | ⟨m, hm, hmk, heq⟩
    · exact ⟨List.replicate (toWide t).cols.length none, heq, fun _ => rfl⟩
    · refine ⟨m.2, heq, ?_⟩
      intro habs
      exfalso
      apply habs
      have hm1 : m.1 ∈ (toWide t).rows.map Prod.fst := List.mem_map_of_mem Prod.fst hm
      rw [toWide_keysEq] at hm1
      rw [hkey2, ← hmk]
      exact hm1
  · obtain ⟨q, hq, heq⟩ := List.mem_map.mp hp
    right
    have hqr : q ∈ (toWide t).rows := List.mem_of_mem_filter hq
    have hk1 : k = q.1 := congrArg Prod.fst heq.symm
    constructor
    · have : q.1 ∈ (toWide t).rows.map Prod.fst := List.mem_map_of_mem Prod.fst hqr
      rw [toWide_keysEq] at this
      rw [hk1]
      exact this
    · exact ⟨q.2, congrArg Prod.snd heq.symm⟩

theorem cell_foldl_preserved {V : Type} :
    ∀ (ts : List (STable V)) (acc : WTable V) (i : ℕ) (k : String),
      acc.Wf → i < acc.cols.length →
      (∀ vs, (k, vs) ∈ acc.rows → vs[i]? = some none) →
      ∀ vs, (k, vs) ∈ (ts.foldl mergeStep acc).rows → vs[i]? = some none := by
  intro ts
  induction ts with
  | nil =>
    intro acc i k _ _ hprop vs hvs
    exact hprop vs hvs
  | cons t ts ih =>
    intro acc i k hwf hi hprop vs hvs
    refine ih (mergeStep acc t) i k (mergeStep_wf acc t hwf) ?_ ?_ vs hvs
    · rw [cols_mergeStep_length]
      omega
    · intro ws hws
      rcases mem_mergeStep_rows acc t k ws hws with
        ⟨q, hq, hkey, tail, heq, _⟩ | ⟨_, tail, heq⟩
      · have hq2 : (k, q.2) ∈ acc.rows := by
          rw [hkey, Prod.mk.eta]
          exact hq
        have hcell := hprop q.2 hq2
        rw [heq, List.getElem?_append_left]
        · exact hcell
        · rw [hwf q hq]
          exact hi
      · rw [heq, List.getElem?_append_left]
        · simp [List.getElem?_replicate, hi]
        · simpa using hi

theorem cell_mergeStep_new {V : Type} (acc : WTable V) (t : STable V) (hwf : acc.Wf)
    (k : String) (vs : List (Option V)) (hv : (k, vs) ∈ (mergeStep acc t).rows)
    (hk : k ∉ t.rows.map Prod.fst) :
    vs[acc.cols.length]? = some none := by
  rcases mem_mergeStep_rows acc t k vs hv with
    ⟨q, hq, _, tail, heq, htail⟩ | ⟨hkt, _⟩
  · have htl : tail = [none] := htail hk
    subst htl
    rw [heq]
    have hlen : q.2.length = acc.cols.length := hwf q hq
    rw [← hlen, List.getElem?_append_right (Nat.le_refl _)]
    simp
  · exact absurd hkt hk

theorem cell_foldl {V : Type} :
    ∀ (ts : List (STable V)) (acc : WTable V), acc.Wf →
      ∀ (j : ℕ) (hj : j < ts.length) (k : String) (vs : List (Option V)),
        (k, vs) ∈ (ts.foldl mergeStep acc).rows →
        k ∉ ((ts.get ⟨j, hj⟩).rows.map Prod.fst) →
        vs[acc.cols.length + j]? = some none := by
  intro ts
  induction ts with
  | nil =>
    intro acc _ j hj
    exact absurd hj (Nat.not_lt_zero j)
  | cons t ts ih =>
    intro acc hwf j hj k vs hv hk
    cases j with
    | zero =>
      have hk0 : k ∉ t.rows.map Prod.fst := hk
      have hlt : acc.cols.length < (mergeStep acc t).cols.length := by
        rw [cols_mergeStep_length]
        omega
      have hprop : ∀ ws, (k, ws) ∈ (mergeStep acc t).rows →
          ws[acc.cols.length]? = some none :=
        fun ws hws => cell_mergeStep_new acc t hwf k ws hws hk0
      have hres := cell_foldl_preserved ts (mergeStep acc t) acc.cols.length k
        (mergeStep_wf acc t hwf) hlt hprop vs hv
      simpa using hres
    | succ j2 =>
      have hj2 : j2 < ts.length := Nat.lt_of_succ_lt_succ hj
      have hres := ih (mergeStep acc t) (mergeStep_wf acc t hwf) j2 hj2 k vs hv hk
      rw [cols_mergeStep_length] at hres
      have harith : acc.cols.length + (j2 + 1) = acc.cols.length + 1 + j2 := by omega
      rw [harith]
      exact hres

theorem merged_nutrients_eq {V : Type} (ts : List (STable V)) (w : WTable V)
    (h : merged_nutrients ts = some w) :
    ∃ w0, mergeAll ts = some w0 ∧ w = sortByKey w0 := by
  unfold merged_nutrients at h
  cases hm : mergeAll ts with
  | none =>
    rw [hm] at h
    exact absurd h (by simp)
  | some w0 =>
    rw [hm] at h
    simp only [Option.map_some', Option.some.injEq] at h
    exact ⟨w0, rfl, h.symm⟩

theorem sortByKey_keys_sorted {V : Type} (w : WTable V) :
    ((sortByKey w).keys).Sorted (· ≤ ·) := by
  haveI htot : IsTotal (String × List (Option V)) (fun a b => strLE a.1 b.1 = true) := ⟨by
    intro a b
    rcases le_total a.1 b.1 with h | h
    · exact Or.inl ((strLE_iff_le _ _).mpr h)
    · exact Or.inr ((strLE_iff_le _ _).mpr h)⟩
  haveI htr : IsTrans (String × List (Option V)) (fun a b => strLE a.1 b.1 = true) := ⟨by
    intro a b c hab hbc
    exact (strLE_iff_le _ _).mpr
      (le_trans ((strLE_iff_le _ _).mp hab) ((strLE_iff_le _ _).mp hbc))⟩
  have hs := List.sorted_insertionSort (fun a b => strLE a.1 b.1 = true) w.rows
  show List.Pairwise (· ≤ ·)
    ((List.insertionSort (fun a b => strLE a.1 b.1 = true) w.rows).map Prod.fst)
  apply List.pairwise_map.mpr
  exact hs.imp (fun hab => (strLE_iff_le _ _).mp hab)

theorem sortByKey_keys_perm {V : Type} (w : WTable V) :
    ((sortByKey w).keys).Perm w.keys := by
  exact (List.perm_insertionSort _ w.rows).map Prod.fst

theorem mergeAll_keys_nodup {V : Type} (ts : List (STable V)) (w : WTable V)
    (h : mergeAll ts = some w) (hts : ∀ t ∈ ts, (t.rows.map Prod.fst).Nodup) :
    w.keys.Nodup := by
  cases ts with
  | nil => exact absurd h (by simp [mergeAll])
  | cons t ts =>
    simp only [mergeAll, Option.some.injEq] at h
    subst h
    apply nodup_keys_foldl ts (toWide t)
    · show ((toWide t).rows.map Prod.fst).Nodup
      rw [toWide_keysEq]
      exact hts t (List.mem_cons_self t ts)
    · intro u hu
      exact hts u (List.mem_cons_of_mem t hu)

theorem merged_nutrients_clean_nodup {V : Type}
    (inputs : List (String × List (String × V))) (w : WTable V)
    (h : merged_nutrients (inputs.map (fun pr => cleanTwoCol pr.1 pr.2)) = some w) :
    w.keys.Nodup := by
  obtain ⟨w0, hm, hws⟩ := merged_nutrients_eq _ w h
  subst hws
  have hnd := mergeAll_keys_nodup _ w0 hm ?_
  · exact ((sortByKey_keys_perm w0).nodup_iff).mpr hnd
  · intro t ht
    obtain ⟨pr, _, heq⟩ := List.mem_map.mp ht
    subst heq
    exact (keys_dedupPairsAux_nodup pr.2 []).1

/-- C1: for every set of input tables fed through the per-source cleaning,
the merged nutrient wide table (the fold of outer joins followed by the
`sort_values` step) has its entity keys in ascending order and contains no
two rows with the same key. The required deduplication is already
guaranteed by the per-source keep-first dedup, so the sorted result has
pairwise distinct keys. -/
theorem merged_nutrients_sorted_nodup {V : Type}
    (inputs : List (String × List (String × V))) (w : WTable V)
    (h : merged_nutrients (inputs.map (fun pr => cleanTwoCol pr.1 pr.2)) = some w) :
    w.keys.Sorted (· ≤ ·) ∧ w.keys.Nodup := by
  obtain ⟨w0, _, hws⟩ := merged_nutrients_eq _ w h
  constructor
  · rw [hws]
    exact sortByKey_keys_sorted w0
  · exact merged_nutrients_clean_nodup inputs w h

theorem merged_nutrients_sorted_nodup_witness :
    merged_nutrients ([("Iron", [("Gulu", (1 : ℕ)), ("Abim", 2)])].map
        (fun pr => cleanTwoCol pr.1 pr.2)) =
      some (⟨["Iron"], [("Abim", [some 2]), ("Gulu", [some 1])]⟩ : WTable ℕ) ∧
    ((⟨["Iron"], [("Abim", [some 2]), ("Gulu", [some 1])]⟩ : WTable ℕ).keys.Sorted (· ≤ ·) ∧
      (⟨["Iron"], [("Abim", [some 2]), ("Gulu", [some 1])]⟩ : WTable ℕ).keys.Nodup) :=
  ⟨by decide, merged_nutrients_sorted_nodup [("Iron", [("Gulu", (1 : ℕ)), ("Abim", 2)])] _ (by decide)⟩

/-- C5: the merged wide table contains a row for every entity-key value
appearing in at least one input table, and the cell of input table `j` in
a row whose key is absent from that table is the explicit missing-value
marker `none` (not a zero and not an empty string, which are not even of
the cell type `Option V`). -/
theorem merge_outer_union_no_value {V : Type} (ts : List (STable V)) (w : WTable V)
    (h : mergeAll ts = some w) :
    (∀ k, (∃ t ∈ ts, k ∈ t.rows.map Prod.fst) → k ∈ w.keys) ∧
    (∀ (j : ℕ) (hj : j < ts.length) (k : String) (vs : List (Option V)),
      (k, vs) ∈ w.rows → k ∉ ((ts.get ⟨j, hj⟩).rows.map Prod.fst) →
      vs[j]? = some none) := by
  cases ts with
  | nil => exact absurd h (by simp [mergeAll])
  | cons t ts =>
    simp only [mergeAll, Option.some.injEq] at h
    subst h
    constructor
    · intro k hex
      obtain ⟨u, hu, hk⟩ := hex
      rcases List.mem_cons.mp hu with heq | hmem
      · subst heq
        apply keys_foldl_left
        show k ∈ (toWide u).rows.map Prod.fst
        rw [toWide_keysEq]
        exact hk
      · exact keys_foldl_table ts (toWide t) u hmem k hk
    · intro j hj k vs hv hk
      cases j with
      | zero =>
        have hk0 : k ∉ t.rows.map Prod.fst := hk
        have hprop : ∀ ws, (k, ws) ∈ (toWide t).rows → ws[0]? = some none := by
          intro ws hws
          exfalso
          apply hk0
          have hmem : k ∈ (toWide t).rows.map Prod.fst :=
            List.mem_map.mpr ⟨(k, ws), hws, rfl⟩
          rwa [toWide_keysEq] at hmem
        exact cell_foldl_preserved ts (toWide t) 0 k (toWide_wf t)
          (by show (0 : ℕ) < 1; omega) hprop vs hv
      | succ j2 =>
        have hj2 : j2 < ts.length := Nat.lt_of_succ_lt_succ hj
        have hres := cell_foldl ts (toWide t) (toWide_wf t) j2 hj2 k vs hv hk
        have h1 : (toWide t).cols.length + j2 = j2 + 1 := by
          show 1 + j2 = j2 + 1
          omega
        rw [h1] at hres
        exact hres

theorem merge_outer_union_no_value_witness :
    mergeAll [STable.mk "f1" [("A", (1 : ℕ)), ("B", 2)], STable.mk "f2" [("B", 3), ("C", 4)]] =
      some (⟨["f1", "f2"],
        [("A", [some 1, none]), ("B", [some 2, some 3]), ("C", [none, some 4])]⟩ : WTable ℕ) ∧
    ((∀ k, (∃ t ∈ [STable.mk "f1" [("A", (1 : ℕ)), ("B", 2)], STable.mk "f2" [("B", 3), ("C", 4)]],
        k ∈ t.rows.map Prod.fst) →
      k ∈ (⟨["f1", "f2"],
        [("A", [some 1, none]), ("B", [some 2, some 3]), ("C", [none, some 4])]⟩ : WTable ℕ).keys) ∧
    (∀ (j : ℕ)
      (hj : j < ([STable.mk "f1" [("A", (1 : ℕ)), ("B", 2)], STable.mk "f2" [("B", 3), ("C", 4)]]).length)
      (k : String) (vs : List (Option ℕ)),
      (k, vs) ∈ (⟨["f1", "f2"],
        [("A", [some 1, none]), ("B", [some 2, some 3]), ("C", [none, some 4])]⟩ : WTable ℕ).rows →
      k ∉ ((([STable.mk "f1" [("A", (1 : ℕ)), ("B", 2)],
            STable.mk "f2" [("B", 3), ("C", 4)]]).get ⟨j, hj⟩).rows.map Prod.fst) →
      vs[j]? = some none)) :=
  ⟨by decide, merge_outer_union_no_value _ _ (by decide)⟩

theorem filter_self_key {β : Type} :
    ∀ (rows : List (String × β)), (rows.map Prod.fst).Nodup →
      ∀ p ∈ rows, rows.filter (fun q => q.1 == p.1) = [p] := by
  intro rows
  induction rows with
  | nil =>
    intro _ p hp
    exact absurd hp (List.not_mem_nil p)
  | cons a rest ih =>
    intro h p hp
    simp only [List.map_cons, List.nodup_cons] at h
    obtain ⟨ha, hrest⟩ := h
    rcases List.mem_cons.mp hp with heq | hmem
    · subst heq
      rw [List.filter_cons]
      simp only [beq_self_eq_true, if_true]
      have hempty : rest.filter (fun q => q.1 == p.1) = [] := by
        apply List.filter_eq_nil_iff.mpr
        intro q hq hbeq
        have hq1 : q.1 = p.1 := by simpa using hbeq
        exact ha (hq1 ▸ List.mem_map_of_mem Prod.fst hq)
      rw [hempty]
    · have hne : (a.1 == p.1) = false := by
        simp only [beq_eq_false_iff_ne, ne_eq]
        intro hcontra
        apply ha
        rw [hcontra]
        exact List.mem_map_of_mem Prod.fst hmem
      rw [List.filter_cons]
      simp only [hne, Bool.false_eq_true, if_false]
      exact ih hrest p hmem

theorem flatMap_eq_map_of_singleton {A B : Type} :
    ∀ (l : List A) (f : A → List B) (g : A → B),
      (∀ p ∈ l, f p = [g p]) → l.flatMap f = l.map g := by
  intro l f g
  induction l with
  | nil =>
    intro _
    rfl
  | cons a rest ih =>
    intro h
    simp only [List.flatMap_cons, List.map_cons, h a (List.mem_cons_self a rest)]
    rw [ih (fun p hp => h p (List.mem_cons_of_mem a hp))]
    rfl

theorem pdMerge_self_eq {V : Type} (w : WTable V) (hnd : (w.rows.map Prod.fst).Nodup) :
    pdMerge w w =
      ⟨w.cols.map (fun c => c ++ "_x") ++ w.cols.map (fun c => c ++ "_y"),
        w.rows.map (fun p => (p.1, p.2 ++ p.2))⟩ := by
  unfold pdMerge
  congr 1
  · congr 1
    · apply List.map_congr_left
      intro c hc
      rw [if_pos hc]
    · apply List.map_congr_left
      intro c hc
      rw [if_pos hc]
  · have hright : w.rows.filter (fun q => w.rows.all (fun p => p.1 != q.1)) = [] := by
      apply List.filter_eq_nil_iff.mpr
      intro q hq hall
      rw [List.all_eq_true] at hall
      have := hall q hq
      simp at this
    rw [hright]
    simp only [List.map_nil, List.append_nil]
    apply flatMap_eq_map_of_singleton
    intro p hp
    unfold mergeRow
    rw [filter_self_key w.rows hnd p hp]
    rfl

/-- C10 (counterexample): self-joining a merge output with `pd.merge` does
not reproduce the table: the value column collides with itself and comes
back duplicated under the pandas suffixes. -/
theorem self_merge_not_idempotent :
    mergeAll [STable.mk "Average Consumption adequacy of Iron (mg)" [("Abim", (1 : ℕ))]] =
      some (⟨["Average Consumption adequacy of Iron (mg)"], [("Abim", [some 1])]⟩ : WTable ℕ) ∧
    pdMerge (⟨["Average Consumption adequacy of Iron (mg)"], [("Abim", [some 1])]⟩ : WTable ℕ)
        ⟨["Average Consumption adequacy of Iron (mg)"], [("Abim", [some 1])]⟩ ≠
      (⟨["Average Consumption adequacy of Iron (mg)"], [("Abim", [some 1])]⟩ : WTable ℕ) := by
  decide

/-- C10 (amended): self-joining a merged nutrient table keeps exactly the
same rows in the same order (one row per key, no duplicate rows) but it is
not idempotent on columns: every value column comes back twice, suffixed
`_x` and `_y`. -/
theorem self_merge_duplicates_columns {V : Type}
    (inputs : List (String × List (String × V))) (w : WTable V)
    (h : merged_nutrients (inputs.map (fun pr => cleanTwoCol pr.1 pr.2)) = some w) :
    pdMerge w w =
      ⟨w.cols.map (fun c => c ++ "_x") ++ w.cols.map (fun c => c ++ "_y"),
        w.rows.map (fun p => (p.1, p.2 ++ p.2))⟩ ∧
    (pdMerge w w).keys = w.keys := by
  have hnd : w.keys.Nodup := merged_nutrients_clean_nodup inputs w h
  have heq := pdMerge_self_eq w hnd
  refine ⟨heq, ?_⟩
  rw [heq]
  show (w.rows.map (fun p => (p.1, p.2 ++ p.2))).map Prod.fst = w.rows.map Prod.fst
  rw [List.map_map]
  rfl

theorem self_merge_duplicates_columns_witness :
    merged_nutrients ([("c", [("A", (1 : ℕ))])].map (fun pr => cleanTwoCol pr.1 pr.2)) =
      some (⟨["c"], [("A", [some 1])]⟩ : WTable ℕ) ∧
    (pdMerge (⟨["c"], [("A", [some 1])]⟩ : WTable ℕ) ⟨["c"], [("A", [some 1])]⟩ =
        ⟨(⟨["c"], [("A", [some (1 : ℕ)])]⟩ : WTable ℕ).cols.map (fun c => c ++ "_x")
            ++ (⟨["c"], [("A", [some (1 : ℕ)])]⟩ : WTable ℕ).cols.map (fun c => c ++ "_y"),
          (⟨["c"], [("A", [some (1 : ℕ)])]⟩ : WTable ℕ).rows.map (fun p => (p.1, p.2 ++ p.2))⟩ ∧
      (pdMerge (⟨["c"], [("A", [some 1])]⟩ : WTable ℕ) ⟨["c"], [("A", [some 1])]⟩).keys =
        (⟨["c"], [("A", [some (1 : ℕ)])]⟩ : WTable ℕ).keys) :=
  ⟨by decide, self_merge_duplicates_columns [("c", [("A", (1 : ℕ))])] _ (by decide)⟩

theorem loadNutrients_ok {α : Type} (fs : String → FileEntry α) :
    ∀ files : List String, (∀ f ∈ files, fs f ≠ FileEntry.malformed) →
      ∃ ds, loadNutrients fs files =
        Except.ok (files.filter (fun f => !(fileExists fs f)), ds) := by
  intro files
  induction files with
  | nil =>
    intro _
    exact ⟨[], rfl⟩
  | cons f rest ih =>
    intro hm
    obtain ⟨ds, hds⟩ := ih (fun g hg => hm g (List.mem_cons_of_mem f hg))
    cases hex : fileExists fs f with
    | false =>
      refine ⟨ds, ?_⟩
      simp only [loadNutrients, hex, hds, List.filter_cons]
      simp
    | true =>
      have hnm : fs f ≠ FileEntry.missing := by
        intro hcontra
        rw [fileExists, hcontra] at hex
        exact absurd hex (by simp)
      have hno : fs f ≠ FileEntry.malformed := hm f (List.mem_cons_self f rest)
      cases hfs : fs f with
      | missing => exact absurd hfs hnm
      | malformed => exact absurd hfs hno
      | content a =>
        refine ⟨(f, a) :: ds, ?_⟩
        simp only [loadNutrients, hex, read_csv, hfs, hds, List.filter_cons]
        simp

theorem loadIndex_error {α : Type} (fs : String → FileEntry α) :
    ∀ ifiles : List (String × String),
      (∃ pr ∈ ifiles, fs pr.1 = FileEntry.missing ∨ fs pr.1 = FileEntry.malformed) →
      ∃ e, loadIndex fs ifiles = Except.error e := by
  intro ifiles
  induction ifiles with
  | nil =>
    intro hex
    obtain ⟨pr, hpr, _⟩ := hex
    exact absurd hpr (List.not_mem_nil pr)
  | cons pr rest ih =>
    intro hex
    obtain ⟨q, hq, hbad⟩ := hex
    cases hfs : fs pr.1 with
    | missing =>
      exact ⟨"FileNotFoundError: " ++ pr.1, by simp only [loadIndex, read_csv, hfs]⟩
    | malformed =>
      exact ⟨"ParserError: " ++ pr.1, by simp only [loadIndex, read_csv, hfs]⟩
    | content a =>
      have hmem : q ∈ rest := by
        rcases List.mem_cons.mp hq with heq | hmem
        · exfalso
          subst heq
          rcases hbad with hb | hb
          · rw [hfs] at hb
            exact absurd hb (by simp)
          · rw [hfs] at hb
            exact absurd hb (by simp)
        · exact hmem
      obtain ⟨e, he⟩ := ih ⟨q, hmem, hbad⟩
      exact ⟨e, by simp only [loadIndex, read_csv, hfs, he]⟩

/-- C3 (counterexample): the vulnerability-index loader performs no
existence check and no exception handling, so a single missing index file
aborts the run with `FileNotFoundError` instead of being skipped and
recorded. -/
theorem loadIndex_missing_aborts :
    loadIndex fsOneIndexMissing indexFiles =
      Except.error "FileNotFoundError: Index datasets/composite-vulnerability.csv" := by
  rfl

/-- C3 (amended): missing files never abort the nutrient loader: they are
skipped and the missing-files report lists exactly the configured paths
that do not exist (provided no existing file is malformed, since a
malformed file raises out of `read_csv` unprotected); the
vulnerability-index loader, by contrast, aborts on a missing file. -/
theorem loader_missing_behavior {α : Type} (fs : String → FileEntry α)
    (files : List String) (ifiles : List (String × String))
    (hm : ∀ f ∈ files, fs f ≠ FileEntry.malformed)
    (hbad : ∃ pr ∈ ifiles, fs pr.1 = FileEntry.missing) :
    (∃ ds, loadNutrients fs files =
      Except.ok (files.filter (fun f => !(fileExists fs f)), ds)) ∧
    (∃ e, loadIndex fs ifiles = Except.error e) := by
  refine ⟨loadNutrients_ok fs files hm, ?_⟩
  apply loadIndex_error
  obtain ⟨pr, hpr, hmiss⟩ := hbad
  exact ⟨pr, hpr, Or.inl hmiss⟩

theorem loader_missing_behavior_witness :
    (∀ f ∈ csv_files, fsOneIndexMissing f ≠ FileEntry.malformed) ∧
    (∃ pr ∈ indexFiles, fsOneIndexMissing pr.1 = FileEntry.missing) ∧
    ((∃ ds, loadNutrients fsOneIndexMissing csv_files =
        Except.ok (csv_files.filter (fun f => !(fileExists fsOneIndexMissing f)), ds)) ∧
      (∃ e, loadIndex fsOneIndexMissing indexFiles = Except.error e)) :=
  ⟨by decide, by decide,
    loader_missing_behavior fsOneIndexMissing csv_files indexFiles (by decide) (by decide)⟩

/-- C4 (counterexample): running the pipeline on a Kilocaleries source,
the persisted header (written at line 192, before the rename at line 204)
carries the `Average`-prefixed kilocalorie name, not the special-cased
prefix-less name the claim asserts. -/
theorem persisted_kcal_prefixed :
    kcalOld ∈ persistedNutrientCols
      [cleanTwoCol (value_col_new "Kilocaleries" "kcal") [("Abim", (1 : ℕ))]] ∧
    kcalNew ∉ persistedNutrientCols
      [cleanTwoCol (value_col_new "Kilocaleries" "kcal") [("Abim", (1 : ℕ))]] := by
  decide

/-- C4 (amended): the special kilocalorie rename is applied only after the
merged table is persisted: the flat file keeps the `Average`-prefixed
column name, while the in-memory table used by the rest of the notebook
carries the prefix-less name from line 204 on. -/
theorem kcal_rename_after_persist {V : Type} (ts : List (STable V)) (w : WTable V)
    (h : merged_nutrients ts = some w) (hold : kcalOld ∈ w.cols) (hnew : kcalNew ∉ w.cols) :
    kcalOld ∈ persistedNutrientCols ts ∧ kcalNew ∉ persistedNutrientCols ts ∧
    kcalNew ∈ postRenameCols ts ∧ kcalOld ∉ postRenameCols ts := by
  have hper : persistedNutrientCols ts = "district" :: w.cols := by
    unfold persistedNutrientCols
    rw [h]
  have hd_new : kcalNew ≠ "district" := by decide
  refine ⟨?_, ?_, ?_, ?_⟩
  · rw [hper]
    exact List.mem_cons_of_mem _ hold
  · rw [hper]
    intro hmem
    rcases List.mem_cons.mp hmem with heq | hmem2
    · exact hd_new heq
    · exact hnew hmem2
  · unfold postRenameCols
    apply List.mem_map.mpr
    refine ⟨kcalOld, ?_, ?_⟩
    · rw [hper]
      exact List.mem_cons_of_mem _ hold
    · rw [if_pos rfl]
  · unfold postRenameCols
    intro hmem
    obtain ⟨c, _, hfc⟩ := List.mem_map.mp hmem
    by_cases hcc : c = kcalOld
    · rw [if_pos hcc] at hfc
      exact (by decide : kcalNew ≠ kcalOld) hfc
    · rw [if_neg hcc] at hfc
      exact hcc hfc

theorem kcal_rename_after_persist_witness :
    merged_nutrients [cleanTwoCol (value_col_new "Kilocaleries" "kcal") [("Abim", (1 : ℕ))]] =
      some (⟨["Average Consumption adequacy of Kilocaleries (kcal)"],
        [("Abim", [some 1])]⟩ : WTable ℕ) ∧
    kcalOld ∈ (⟨["Average Consumption adequacy of Kilocaleries (kcal)"],
      [("Abim", [some (1 : ℕ)])]⟩ : WTable ℕ).cols ∧
    kcalNew ∉ (⟨["Average Consumption adequacy of Kilocaleries (kcal)"],
      [("Abim", [some (1 : ℕ)])]⟩ : WTable ℕ).cols ∧
    (kcalOld ∈ persistedNutrientCols
        [cleanTwoCol (value_col_new "Kilocaleries" "kcal") [("Abim", (1 : ℕ))]] ∧
      kcalNew ∉ persistedNutrientCols
        [cleanTwoCol (value_col_new "Kilocaleries" "kcal") [("Abim", (1 : ℕ))]] ∧
      kcalNew ∈ postRenameCols
        [cleanTwoCol (value_col_new "Kilocaleries" "kcal") [("Abim", (1 : ℕ))]] ∧
      kcalOld ∉ postRenameCols
        [cleanTwoCol (value_col_new "Kilocaleries" "kcal") [("Abim", (1 : ℕ))]]) :=
  ⟨by decide, by decide, by decide,
    kcal_rename_after_persist
      [cleanTwoCol (value_col_new "Kilocaleries" "kcal") [("Abim", (1 : ℕ))]]
      (⟨["Average Consumption adequacy of Kilocaleries (kcal)"],
        [("Abim", [some 1])]⟩ : WTable ℕ)
      (by decide) (by decide) (by decide)⟩

/-- C8: when a table has at least one non-key column, the merge-time value
column is selected by the three-tier precedence: the first column whose
name contains the phrase `Average Consumption adequacy`; else the first
numeric non-key column; else the last non-key column — and the selected
column is always one of the non-key columns. -/
theorem val_col_three_tier (cols : List ColMeta) (hnm : other_cols cols ≠ []) :
    ∃ c, val_col cols = some c ∧ c ∈ other_cols cols ∧
      ((other_cols cols).find? (fun d => strContains d "Average Consumption adequacy") = some c
        ∨ ((∀ d ∈ other_cols cols, strContains d "Average Consumption adequacy" = false) ∧
            (numeric_cols cols).head? = some c)
        ∨ ((∀ d ∈ other_cols cols, strContains d "Average Consumption adequacy" = false) ∧
            numeric_cols cols = [] ∧ (other_cols cols).getLast? = some c)) := by
  unfold val_col
  rw [if_neg hnm]
  cases hfind : (other_cols cols).find? (fun c => strContains c "Average Consumption adequacy") with
  | some c =>
    exact ⟨c, rfl, List.mem_of_find?_eq_some hfind, Or.inl rfl⟩
  | none =>
    have hall : ∀ d ∈ other_cols cols,
        strContains d "Average Consumption adequacy" = false := by
      intro d hd
      have hnone := List.find?_eq_none.mp hfind d hd
      simpa using hnone
    cases hnc : numeric_cols cols with
    | cons nc rest =>
      refine ⟨nc, rfl, ?_, Or.inr (Or.inl ⟨hall, rfl⟩)⟩
      have hmem : nc ∈ numeric_cols cols := by
        rw [hnc]
        exact List.mem_cons_self nc rest
      unfold numeric_cols at hmem
      unfold other_cols
      obtain ⟨h1a, h1b⟩ := List.mem_filter.mp hmem
      apply List.mem_filter.mpr
      refine ⟨?_, h1b⟩
      obtain ⟨x, hx, hxe⟩ := List.mem_map.mp h1a
      exact hxe ▸ List.mem_map_of_mem ColMeta.name (List.mem_of_mem_filter hx)
    | nil =>
      have hglast : ∃ c, (other_cols cols).getLast? = some c ∧ c ∈ other_cols cols := by
        cases hoc : other_cols cols with
        | nil => exact absurd hoc hnm
        | cons a rest =>
          refine ⟨(a :: rest).getLast (by simp), List.getLast?_eq_getLast _ _, ?_⟩
          exact List.getLast_mem (by simp)
      obtain ⟨c, hc, hcm⟩ := hglast
      exact ⟨c, hc, hcm, Or.inr (Or.inr ⟨hall, rfl, hc⟩)⟩

theorem val_col_three_tier_witness :
    other_cols [ColMeta.mk "district" false, ColMeta.mk "x" true] ≠ [] ∧
    (∃ c, val_col [ColMeta.mk "district" false, ColMeta.mk "x" true] = some c ∧
      c ∈ other_cols [ColMeta.mk "district" false, ColMeta.mk "x" true] ∧
      ((other_cols [ColMeta.mk "district" false, ColMeta.mk "x" true]).find?
          (fun d => strContains d "Average Consumption adequacy") = some c
        ∨ ((∀ d ∈ other_cols [ColMeta.mk "district" false, ColMeta.mk "x" true],
              strContains d "Average Consumption adequacy" = false) ∧
            (numeric_cols [ColMeta.mk "district" false, ColMeta.mk "x" true]).head? = some c)
        ∨ ((∀ d ∈ other_cols [ColMeta.mk "district" false, ColMeta.mk "x" true],
              strContains d "Average Consumption adequacy" = false) ∧
            numeric_cols [ColMeta.mk "district" false, ColMeta.mk "x" true] = [] ∧
            (other_cols [ColMeta.mk "district" false, ColMeta.mk "x" true]).getLast? = some c))) :=
  ⟨by decide, val_col_three_tier [ColMeta.mk "district" false, ColMeta.mk "x" true] (by decide)⟩

/-- C9: the primary classifier maps value at least 0.6 to High, values in
[0.3, 0.6) to Medium and values below 0.3 to Low, while the alert filters
treat at least 0.7 as critical and [0.6, 0.7) as the warning band; at
exactly 0.6 the primary classifier answers High while the alert system
places the region in the warning band and not among the critical alerts,
so the two classifiers are not interchangeable. -/
theorem risk_classifiers_boundary :
    (∀ v : ℚ,
      ((get_risk_level v).1 = "High" ↔ 6/10 ≤ v) ∧
      ((get_risk_level v).1 = "Medium" ↔ 3/10 ≤ v ∧ v < 6/10) ∧
      ((get_risk_level v).1 = "Low" ↔ v < 3/10)) ∧
    (get_risk_level (6/10)).1 = "High" ∧
    (∀ (rows : List (String × ℚ)) (r : String × ℚ),
      (r ∈ high_vuln_regions rows ↔ r ∈ rows ∧ 7/10 ≤ r.2) ∧
      (r ∈ medium_vuln_regions rows ↔ r ∈ rows ∧ 6/10 ≤ r.2 ∧ r.2 < 7/10)) ∧
    ("Acholi", (6 : ℚ)/10) ∉ high_vuln_regions [("Acholi", 6/10)] ∧
    ("Acholi", (6 : ℚ)/10) ∈ medium_vuln_regions [("Acholi", 6/10)] := by
  have hre : ∀ v : ℚ, get_risk_level v =
      if (6 : ℚ)/10 ≤ v then ("High", "🔴")
      else if (3 : ℚ)/10 ≤ v then ("Medium", "🟡")
      else ("Low", "🟢") := fun v => rfl
  refine ⟨?_, ?_, ?_, ?_, ?_⟩
  · intro v
    rw [hre v]
    split_ifs with h1 h2
    · refine ⟨⟨fun _ => h1, fun _ => rfl⟩, ⟨?_, ?_⟩, ⟨?_, ?_⟩⟩
      · intro hs
        exact absurd hs (by decide)
      · intro hand
        exact absurd h1 (not_le.mpr hand.2)
      · intro hs
        exact absurd hs (by decide)
      · intro hlt
        exact absurd h1 (not_le.mpr (lt_trans hlt (by norm_num)))
    · refine ⟨⟨?_, ?_⟩, ⟨fun _ => ⟨h2, not_le.mp h1⟩, fun _ => rfl⟩, ⟨?_, ?_⟩⟩
      · intro hs
        exact absurd hs (by decide)
      · intro hle
        exact absurd hle h1
      · intro hs
        exact absurd hs (by decide)
      · intro hlt
        exact absurd h2 (not_le.mpr hlt)
    · refine ⟨⟨?_, ?_⟩, ⟨?_, ?_⟩, ⟨fun _ => not_le.mp h2, fun _ => rfl⟩⟩
      · intro hs
        exact absurd hs (by decide)
      · intro hle
        exact absurd (le_trans (by norm_num) hle) h2
      · intro hs
        exact absurd hs (by decide)
      · intro hand
        exact absurd hand.1 h2
  · rw [hre, if_pos (le_refl _)]
  · intro rows r
    constructor
    · rw [high_vuln_regions, List.mem_filter, decide_eq_true_eq]
    · rw [medium_vuln_regions, List.mem_filter, Bool.and_eq_true,
        decide_eq_true_eq, decide_eq_true_eq]

  · intro hmem
    rw [high_vuln_regions, List.mem_filter, decide_eq_true_eq] at hmem
    have := hmem.2
    norm_num at this
  · rw [medium_vuln_regions, List.mem_filter]
    refine ⟨List.mem_singleton.mpr rfl, ?_⟩
    simp only [Bool.and_eq_true, decide_eq_true_eq]
    constructor
    · norm_num
    · norm_num

end Derpin
